import Mathlib

/-!
Verification of the symbolic-tracer core (torch/fx/proxy.py): the proxy
interception and argument-lowering protocol.  Python values, graph nodes and
the operations of `TracerBase`, `Proxy` and `Attribute` are shallowly embedded
as executable Lean definitions; machine state (the append-only node graph) is
passed explicitly.
-/

namespace TorchFX

/-- Modelled from the spec: the base-type catalog (`base_types` of node.py is
not under src/); spec section 6 describes it as numeric, string, boolean and
similar atomic value kinds.  Float payloads are opaque tags, since only
identity of the literal matters to the lowering engine. -/
inductive BaseLit where
  | int (n : Int)
  | float (tag : Nat)
  | bool (b : Bool)
  | str (s : String)

/-- A Python mapping key as seen by `create_arg`: either a string, or some
non-string key (e.g. the integer 1), which the engine rejects. -/
inductive PKey where
  | str (s : String)
  | nonStr (tag : Nat)

/-- A Python value handed to the argument-lowering engine `create_arg`:
tuples, lists, mappings, slices, proxies (identified by the id of the node
they wrap), base-type literals, `None`, and any other object (`obj`, an
unsupported leaf). -/
inductive Value where
  | proxy (nid : Nat)
  | base (b : BaseLit)
  | none
  | obj (tag : Nat)
  | tup (xs : List Value)
  | lst (xs : List Value)
  | dct (xs : List (PKey × Value))
  | slc (start stop step : Value)

/-- A node target: a method-name string (for `call_method`) or a
function/operator symbol (for `call_function`). -/
inductive Target where
  | str (s : String)
  | callable (s : String)

/-- An IR-safe `Argument`: a node reference, a base literal, `None`, or a
nested container of arguments. -/
inductive Arg where
  | node (id : Nat)
  | base (b : BaseLit)
  | none
  | tup (xs : List Arg)
  | lst (xs : List Arg)
  | dct (xs : List (String × Arg))
  | slc (start stop step : Arg)

/-- The two `NotImplementedError` messages `create_arg` can raise:
"dictionaries with non-string keys" and "argument of type". -/
inductive LoweringError where
  | nonStringKey
  | unsupportedType

mutual

/-- Embedding of `TracerBase.create_arg` (proxy.py lines 45-71): recurse into
tuples and lists preserving the sequence subtype, recurse into dicts
rejecting non-string keys, recurse into slices component-wise, unwrap a
proxy into its backing node, pass base-type literals and `None` through,
and reject any other value. -/
def create_arg : Value → Except LoweringError Arg
  | Value.tup xs =>
      match create_argList xs with
      | Except.ok r => Except.ok (Arg.tup r)
      | Except.error e => Except.error e
  | Value.lst xs =>
      match create_argList xs with
      | Except.ok r => Except.ok (Arg.lst r)
      | Except.error e => Except.error e
  | Value.dct xs =>
      match create_argDict xs with
      | Except.ok r => Except.ok (Arg.dct r)
      | Except.error e => Except.error e
  | Value.slc a b c =>
      match create_arg a with
      | Except.error e => Except.error e
      | Except.ok ra =>
        match create_arg b with
        | Except.error e => Except.error e
        | Except.ok rb =>
          match create_arg c with
          | Except.error e => Except.error e
          | Except.ok rc => Except.ok (Arg.slc ra rb rc)
  | Value.proxy nid => Except.ok (Arg.node nid)
  | Value.base b => Except.ok (Arg.base b)
  | Value.none => Except.ok Arg.none
  | Value.obj _ => Except.error LoweringError.unsupportedType

/-- The element-wise traversal `type(a)(self.create_arg(elem) for elem in a)`
performs over a sequence: lower each element in order, propagating the first
error. -/
def create_argList : List Value → Except LoweringError (List Arg)
  | [] => Except.ok []
  | v :: vs =>
      match create_arg v with
      | Except.error e => Except.error e
      | Except.ok r =>
        match create_argList vs with
        | Except.error e => Except.error e
        | Except.ok rs => Except.ok (r :: rs)

/-- The dict loop of `create_arg`: check each key is a string (else raise),
then lower the associated value. -/
def create_argDict : List (PKey × Value) → Except LoweringError (List (String × Arg))
  | [] => Except.ok []
  | (PKey.str k, v) :: vs =>
      match create_arg v with
      | Except.error e => Except.error e
      | Except.ok r =>
        match create_argDict vs with
        | Except.error e => Except.error e
        | Except.ok rs => Except.ok ((k, r) :: rs)
  | (PKey.nonStr _, _) :: _ => Except.error LoweringError.nonStringKey

end

mutual

/-- The spec's characterization of a lowerable structure: every mapping key
is a string and every leaf is a proxy, `None`, or a base-type literal. -/
def supported : Value → Bool
  | Value.tup xs => supportedList xs
  | Value.lst xs => supportedList xs
  | Value.dct xs => supportedDict xs
  | Value.slc a b c => supported a && supported b && supported c
  | Value.proxy _ => true
  | Value.base _ => true
  | Value.none => true
  | Value.obj _ => false

/-- All members of a sequence are lowerable. -/
def supportedList : List Value → Bool
  | [] => true
  | v :: vs => supported v && supportedList vs

/-- All keys are strings and all values lowerable. -/
def supportedDict : List (PKey × Value) → Bool
  | [] => true
  | (PKey.str _, v) :: vs => supported v && supportedDict vs
  | (PKey.nonStr _, _) :: _ => false

end

mutual

/-- The result the spec promises from lowering: a structure of identical
shape and sequence subtype in which every proxy is replaced by a reference
to its backing node and every base-type literal and `None` is unchanged.
(The `obj` clause is arbitrary; it is unreachable on supported values.) -/
def lowerSpec : Value → Arg
  | Value.tup xs => Arg.tup (lowerSpecList xs)
  | Value.lst xs => Arg.lst (lowerSpecList xs)
  | Value.dct xs => Arg.dct (lowerSpecDict xs)
  | Value.slc a b c => Arg.slc (lowerSpec a) (lowerSpec b) (lowerSpec c)
  | Value.proxy nid => Arg.node nid
  | Value.base b => Arg.base b
  | Value.none => Arg.none
  | Value.obj _ => Arg.none

/-- Shape-preserving lowering of a sequence. -/
def lowerSpecList : List Value → List Arg
  | [] => []
  | v :: vs => lowerSpec v :: lowerSpecList vs

/-- Shape-preserving lowering of a string-keyed mapping.  (The non-string
clause is arbitrary; it is unreachable on supported values.) -/
def lowerSpecDict : List (PKey × Value) → List (String × Arg)
  | [] => []
  | (PKey.str k, v) :: vs => (k, lowerSpec v) :: lowerSpecDict vs
  | (PKey.nonStr _, _) :: vs => lowerSpecDict vs

end

/-- Whether an `Except` result is a success. -/
def isOkE {ε α : Type} : Except ε α → Bool
  | Except.ok _ => true
  | Except.error _ => false

mutual

theorem create_arg_ok (a : Value) (h : supported a = true) :
    create_arg a = Except.ok (lowerSpec a) := by
  cases a with
  | tup xs =>
      simp only [supported] at h
      simp only [create_arg, lowerSpec, create_argList_ok xs h]
  | lst xs =>
      simp only [supported] at h
      simp only [create_arg, lowerSpec, create_argList_ok xs h]
  | dct xs =>
      simp only [supported] at h
      simp only [create_arg, lowerSpec, create_argDict_ok xs h]
  | slc a b c =>
      simp only [supported, Bool.and_eq_true] at h
      simp only [create_arg, lowerSpec, create_arg_ok a h.1.1, create_arg_ok b h.1.2,
        create_arg_ok c h.2]
  | proxy nid => rfl
  | base b => rfl
  | none => rfl
  | obj t => simp [supported] at h

theorem create_argList_ok (xs : List Value) (h : supportedList xs = true) :
    create_argList xs = Except.ok (lowerSpecList xs) := by
  cases xs with
  | nil => rfl
  | cons v vs =>
      simp only [supportedList, Bool.and_eq_true] at h
      simp only [create_argList, lowerSpecList, create_arg_ok v h.1, create_argList_ok vs h.2]

theorem create_argDict_ok (xs : List (PKey × Value)) (h : supportedDict xs = true) :
    create_argDict xs = Except.ok (lowerSpecDict xs) := by
  cases xs with
  | nil => rfl
  | cons kv vs =>
      cases kv with
      | mk k v =>
          cases k with
          | str s =>
              simp only [supportedDict, Bool.and_eq_true] at h
              simp only [create_argDict, lowerSpecDict, create_arg_ok v h.1,
                create_argDict_ok vs h.2]
          | nonStr t => simp [supportedDict] at h

end

mutual

theorem create_arg_isOk (a : Value) : isOkE (create_arg a) = supported a := by
  cases a with
  | tup xs =>
      have ih := create_argList_isOk xs
      simp only [create_arg, supported]
      cases hx : create_argList xs with
      | ok r => rw [hx] at ih; simpa [isOkE] using ih
      | error e => rw [hx] at ih; simpa [isOkE] using ih
  | lst xs =>
      have ih := create_argList_isOk xs
      simp only [create_arg, supported]
      cases hx : create_argList xs with
      | ok r => rw [hx] at ih; simpa [isOkE] using ih
      | error e => rw [hx] at ih; simpa [isOkE] using ih
  | dct xs =>
      have ih := create_argDict_isOk xs
      simp only [create_arg, supported]
      cases hx : create_argDict xs with
      | ok r => rw [hx] at ih; simpa [isOkE] using ih
      | error e => rw [hx] at ih; simpa [isOkE] using ih
  | slc a b c =>
      have iha := create_arg_isOk a
      have ihb := create_arg_isOk b
      have ihc := create_arg_isOk c
      simp only [create_arg, supported]
      cases hxa : create_arg a with
      | error e => rw [hxa] at iha; simp [isOkE] at iha ⊢; simp [← iha]
      | ok ra =>
          rw [hxa] at iha; simp only [isOkE] at iha
          cases hxb : create_arg b with
          | error e => rw [hxb] at ihb; simp [isOkE] at ihb ⊢; simp [← iha, ← ihb]
          | ok rb =>
              rw [hxb] at ihb; simp only [isOkE] at ihb
              cases hxc : create_arg c with
              | error e => rw [hxc] at ihc; simp [isOkE] at ihc ⊢; simp [← iha, ← ihb, ← ihc]
              | ok rc =>
                  rw [hxc] at ihc; simp only [isOkE] at ihc
                  simp [isOkE, ← iha, ← ihb, ← ihc]
  | proxy nid => rfl
  | base b => rfl
  | none => rfl
  | obj t => rfl

theorem create_argList_isOk (xs : List Value) : isOkE (create_argList xs) = supportedList xs := by
  cases xs with
  | nil => rfl
  | cons v vs =>
      have ihv := create_arg_isOk v
      have ihs := create_argList_isOk vs
      simp only [create_argList, supportedList]
      cases hxv : create_arg v with
      | error e => rw [hxv] at ihv; simp [isOkE] at ihv ⊢; simp [← ihv]
      | ok r =>
          rw [hxv] at ihv; simp only [isOkE] at ihv
          cases hxs : create_argList vs with
          | error e => rw [hxs] at ihs; simp [isOkE] at ihs ⊢; simp [← ihv, ← ihs]
          | ok rs =>
              rw [hxs] at ihs; simp only [isOkE] at ihs
              simp [isOkE, ← ihv, ← ihs]

theorem create_argDict_isOk (xs : List (PKey × Value)) :
    isOkE (create_argDict xs) = supportedDict xs := by
  cases xs with
  | nil => rfl
  | cons kv vs =>
      cases kv with
      | mk k v =>
          cases k with
          | nonStr t => rfl
          | str s =>
              have ihv := create_arg_isOk v
              have ihs := create_argDict_isOk vs
              simp only [create_argDict, supportedDict]
              cases hxv : create_arg v with
              | error e => rw [hxv] at ihv; simp [isOkE] at ihv ⊢; simp [← ihv]
              | ok r =>
                  rw [hxv] at ihv; simp only [isOkE] at ihv
                  cases hxs : create_argDict vs with
                  | error e => rw [hxs] at ihs; simp [isOkE] at ihs ⊢; simp [← ihv, ← ihs]
                  | ok rs =>
                      rw [hxs] at ihs; simp only [isOkE] at ihs
                      simp [isOkE, ← ihv, ← ihs]

end

/-- C1: for every nested argument structure built from tuples, lists,
string-keyed mappings, slices, proxies and base-type literals (`supported`),
`create_arg` succeeds and returns exactly the spec-side lowering `lowerSpec`:
a structure of identical shape and sequence subtype in which every proxy is
replaced by its backing node and every base-type literal and `None` is
unchanged. -/
theorem c1_lowering_preserves_shape (a : Value) (h : supported a = true) :
    create_arg a = Except.ok (lowerSpec a) :=
  create_arg_ok a h

/-- The spec's worked example `(p1, [p2, 3], {"a": p3})` where the proxies
wrap nodes 1, 2 and 3. -/
def exC1 : Value :=
  Value.tup [Value.proxy 1,
    Value.lst [Value.proxy 2, Value.base (BaseLit.int 3)],
    Value.dct [(PKey.str "a", Value.proxy 3)]]

theorem c1_witness :
    supported exC1 = true ∧
    create_arg exC1 = Except.ok (Arg.tup [Arg.node 1,
      Arg.lst [Arg.node 2, Arg.base (BaseLit.int 3)],
      Arg.dct [("a", Arg.node 3)]]) :=
  ⟨rfl, c1_lowering_preserves_shape exC1 rfl⟩

/-- C4: `create_arg` raises the unsupported-argument error exactly when the
structure has a mapping with a non-string key or a leaf that is neither a
proxy, `None`, nor a base-type literal (i.e. exactly when `supported` is
false); in particular lowering the mapping with integer key 1 bound to a
proxy raises the non-string-key variant. -/
theorem c4_unsupported_argument_error :
    (∀ a : Value, (∃ e, create_arg a = Except.error e) ↔ supported a = false) ∧
    create_arg (Value.dct [(PKey.nonStr 1, Value.proxy 1)])
      = Except.error LoweringError.nonStringKey := by
  refine ⟨fun a => ⟨?_, ?_⟩, rfl⟩
  · rintro ⟨e, he⟩
    have h := create_arg_isOk a
    rw [he] at h
    simpa [isOkE] using h.symm
  · intro h
    have hok := create_arg_isOk a
    rw [h] at hok
    cases hx : create_arg a with
    | ok r => rw [hx] at hok; simp [isOkE] at hok
    | error e => exact ⟨e, rfl⟩

theorem c4_witness :
    supported (Value.dct [(PKey.nonStr 1, Value.proxy 1)]) = false :=
  (c4_unsupported_argument_error.1 _).mp ⟨_, c4_unsupported_argument_error.2⟩

/-- One IR node as stored by the graph: kind, target, args, kwargs, name. -/
structure Node where
  kind : String
  target : Target
  args : List Arg
  kwargs : List (String × Arg)
  name : String

/-- The graph store: an append-only ordered list of nodes.  A node id is its
index in the list. -/
abbrev Graph := List Node

/-- The names currently allocated in the graph. -/
def usedNames (g : Graph) : List String := g.map Node.name

/-- Modelled from the spec: the unique-name allocator
(`Graph._create_unique_name` of graph.py is not under src/); spec section 6
says it uniquifies a candidate, disambiguating a collision by suffixing. -/
def uniquify (g : Graph) (c : String) : String :=
  if (usedNames g).contains c then
    match (List.range (g.length + 1)).find?
        (fun k => !((usedNames g).contains (c ++ "_" ++ toString (k + 1)))) with
    | Option.some k => c ++ "_" ++ toString (k + 1)
    | Option.none => c
  else c

/-- Display string of a target, seeding a default node name. -/
def targetToStr : Target → String
  | Target.str s => s
  | Target.callable s => s

/-- Modelled from the spec: the graph store's node-creation primitive
(`Graph.create_node` of graph.py is not under src/); spec section 6 says it
appends and returns a new node with a store-assigned unique name when none
is given.  Returns the new graph and the new node's id. -/
def create_node (g : Graph) (kind : String) (target : Target)
    (args : List Arg) (kwargs : List (String × Arg)) (name : Option String) : Graph × Nat :=
  let nm := match name with
    | Option.some s => uniquify g s
    | Option.none => uniquify g (targetToStr target)
  (g ++ [⟨kind, target, args, kwargs, nm⟩], g.length)

/-- The name-free structural content of a graph: the ordered list of
(kind, target, args, kwargs) of its nodes. -/
def eraseNames (g : Graph) : List (String × Target × List Arg × List (String × Arg)) :=
  g.map (fun n => (n.kind, n.target, n.args, n.kwargs))

/-- The named local bindings of the identified calling scope: binding name
paired with the identity (Python `is`) token of the bound object. -/
abbrev Locals := List (String × Nat)

/-- The scan of `f_locals.items()` in `_assign_friendly_name` (proxy.py lines
146-155): keep the first match, replacing it whenever a strictly shorter
binding name aliases the same object. -/
def findNameAux (p : Nat) : Option String → Locals → Option String
  | acc, [] => acc
  | Option.none, kv :: rest =>
      if kv.2 = p then findNameAux p (Option.some kv.1) rest
      else findNameAux p Option.none rest
  | Option.some f, kv :: rest =>
      if kv.2 = p then
        (if kv.1.length < f.length then findNameAux p (Option.some kv.1) rest
         else findNameAux p (Option.some f) rest)
      else findNameAux p (Option.some f) rest

/-- The friendly-name candidate for the proxy with identity token `p`. -/
def findName (L : Locals) (p : Nat) : Option String := findNameAux p Option.none L

/-- Rewrite the name field of node `nid`, leaving everything else intact. -/
def renameNode (g : Graph) (nid : Nat) (nm : String) : Graph :=
  match g[nid]? with
  | Option.some n => g.set nid { n with name := nm }
  | Option.none => g

/-- The materialized-proxy base case of `_assign_friendly_name` (proxy.py
lines 143-157): if some local aliases the proxy and the (shortest) candidate
differs from the backing node's current name, rename that node to a
uniquified version of the candidate. -/
def assignLeaf (L : Locals) (g : Graph) (pid nid : Nat) : Graph :=
  match findName L pid with
  | Option.none => g
  | Option.some nm =>
      match g[nid]? with
      | Option.none => g
      | Option.some nd => if nm = nd.name then g else renameNode g nid (uniquify g nm)

/-- A value walked by the friendly-name resolver.  Proxy leaves carry an
identity token `pid` (Python object identity, what `a is v` compares).
`prox` is a plain proxy wrapping node `nid`; `attrU` is an Attribute-variant
proxy whose backing node is not yet materialized (it holds its root's node id
and the attribute name); `attrM` is an Attribute whose node is already
materialized. -/
inductive FVal where
  | prox (pid nid : Nat)
  | attrU (pid root : Nat) (attr : String)
  | attrM (pid nid : Nat)
  | lit (b : BaseLit)
  | non
  | tup (xs : List FVal)
  | lst (xs : List FVal)
  | dct (xs : List (String × FVal))
  | slc (start stop step : FVal)

mutual

/-- Embedding of `_create_friendly_names` / `_assign_friendly_name`
(proxy.py lines 108-159) as a graph transformation: walk the structure; at a
proxy leaf aliased by a local binding, read the backing node (materializing
it first when the leaf is an unmaterialized Attribute, as `a.node` does) and
rename it when the candidate differs from its current name. -/
def assignF (L : Locals) (g : Graph) : FVal → Graph
  | FVal.prox pid nid => assignLeaf L g pid nid
  | FVal.attrM pid nid => assignLeaf L g pid nid
  | FVal.attrU pid root attr =>
      match findName L pid with
      | Option.none => g
      | Option.some nm =>
          let r := create_node g "call_function" (Target.callable "getattr")
              [Arg.node root, Arg.base (BaseLit.str attr)] [] Option.none
          match r.1[r.2]? with
          | Option.none => r.1
          | Option.some nd => if nm = nd.name then r.1 else renameNode r.1 r.2 (uniquify r.1 nm)
  | FVal.lit _ => g
  | FVal.non => g
  | FVal.tup xs => assignFList L g xs
  | FVal.lst xs => assignFList L g xs
  | FVal.dct xs => assignFDict L g xs
  | FVal.slc a b c => assignF L (assignF L (assignF L g a) b) c

/-- Sequence walk of the resolver, threading the graph left to right. -/
def assignFList (L : Locals) (g : Graph) : List FVal → Graph
  | [] => g
  | v :: vs => assignFList L (assignF L g v) vs

/-- String-keyed mapping walk of the resolver. -/
def assignFDict (L : Locals) (g : Graph) : List (String × FVal) → Graph
  | [] => g
  | kv :: vs => assignFDict L (assignF L g kv.2) vs

end

mutual

/-- No unmaterialized Attribute-variant leaf anywhere in the structure. -/
def noAttrU : FVal → Bool
  | FVal.attrU _ _ _ => false
  | FVal.tup xs => noAttrUList xs
  | FVal.lst xs => noAttrUList xs
  | FVal.dct xs => noAttrUDict xs
  | FVal.slc a b c => noAttrU a && noAttrU b && noAttrU c
  | FVal.prox _ _ => true
  | FVal.attrM _ _ => true
  | FVal.lit _ => true
  | FVal.non => true

/-- No unmaterialized Attribute leaf in a sequence. -/
def noAttrUList : List FVal → Bool
  | [] => true
  | v :: vs => noAttrU v && noAttrUList vs

/-- No unmaterialized Attribute leaf in a mapping. -/
def noAttrUDict : List (String × FVal) → Bool
  | [] => true
  | kv :: vs => noAttrU kv.2 && noAttrUDict vs

end

theorem set_self_of_getElem {α : Type} :
    ∀ (xs : List α) (i : Nat) (x : α), xs[i]? = Option.some x → xs.set i x = xs
  | [], i, x, h => by simp at h
  | y :: ys, 0, x, h => by
      simp at h
      simp [h]
  | y :: ys, i + 1, x, h => by
      simp at h
      simp [set_self_of_getElem ys i x h]

theorem eraseNames_renameNode (g : Graph) (nid : Nat) (nm : String) :
    eraseNames (renameNode g nid nm) = eraseNames g := by
  unfold renameNode
  cases hx : g[nid]? with
  | none => rfl
  | some n =>
      unfold eraseNames
      rw [List.map_set]
      have : (g.map (fun n => (n.kind, n.target, n.args, n.kwargs)))[nid]?
          = Option.some (n.kind, n.target, n.args, n.kwargs) := by
        rw [List.getElem?_map, hx]
        rfl
      exact set_self_of_getElem _ _ _ this

theorem eraseNames_assignLeaf (L : Locals) (g : Graph) (pid nid : Nat) :
    eraseNames (assignLeaf L g pid nid) = eraseNames g := by
  unfold assignLeaf
  cases findName L pid with
  | none => rfl
  | some nm =>
      cases g[nid]? with
      | none => rfl
      | some nd =>
          by_cases h : nm = nd.name
          · simp [h]
          · simp [h, eraseNames_renameNode]

mutual

theorem eraseNames_assignF (L : Locals) (g : Graph) (v : FVal) (h : noAttrU v = true) :
    eraseNames (assignF L g v) = eraseNames g := by
  cases v with
  | prox pid nid => exact eraseNames_assignLeaf L g pid nid
  | attrM pid nid => exact eraseNames_assignLeaf L g pid nid
  | attrU pid root attr => simp [noAttrU] at h
  | lit b => rfl
  | non => rfl
  | tup xs =>
      simp only [noAttrU] at h
      exact eraseNames_assignFList L g xs h
  | lst xs =>
      simp only [noAttrU] at h
      exact eraseNames_assignFList L g xs h
  | dct xs =>
      simp only [noAttrU] at h
      exact eraseNames_assignFDict L g xs h
  | slc a b c =>
      simp only [noAttrU, Bool.and_eq_true] at h
      simp only [assignF]
      rw [eraseNames_assignF L _ c h.2, eraseNames_assignF L _ b h.1.2,
        eraseNames_assignF L _ a h.1.1]

theorem eraseNames_assignFList (L : Locals) (g : Graph) (xs : List FVal)
    (h : noAttrUList xs = true) :
    eraseNames (assignFList L g xs) = eraseNames g := by
  cases xs with
  | nil => rfl
  | cons v vs =>
      simp only [noAttrUList, Bool.and_eq_true] at h
      simp only [assignFList]
      rw [eraseNames_assignFList L _ vs h.2, eraseNames_assignF L g v h.1]

theorem eraseNames_assignFDict (L : Locals) (g : Graph) (xs : List (String × FVal))
    (h : noAttrUDict xs = true) :
    eraseNames (assignFDict L g xs) = eraseNames g := by
  cases xs with
  | nil => rfl
  | cons kv vs =>
      simp only [noAttrUDict, Bool.and_eq_true] at h
      simp only [assignFDict]
      rw [eraseNames_assignFDict L _ vs h.2, eraseNames_assignF L g kv.2 h.1]

end

theorem eraseNames_create_node (g : Graph) (kind : String) (target : Target)
    (args : List Arg) (kwargs : List (String × Arg)) (name : Option String) :
    eraseNames (create_node g kind target args kwargs name).1
      = eraseNames g ++ [(kind, target, args, kwargs)] := by
  simp [create_node, eraseNames]

theorem findNameAux_spec (p : Nat) :
    ∀ (L : Locals) (acc : Option String) (nm : String),
      findNameAux p acc L = Option.some nm →
      ((nm, p) ∈ L ∨ acc = Option.some nm) ∧
      (∀ kv ∈ L, kv.2 = p → nm.length ≤ kv.1.length) ∧
      (∀ f, acc = Option.some f → nm.length ≤ f.length)
  | [], acc, nm, h => by
      simp only [findNameAux] at h
      refine ⟨Or.inr h, by simp, fun f hf => ?_⟩
      rw [h] at hf
      cases hf
      exact le_refl _
  | kv :: rest, Option.none, nm, h => by
      by_cases hp : kv.2 = p
      · rw [findNameAux, if_pos hp] at h
        have ih := findNameAux_spec p rest (Option.some kv.1) nm h
        have hkv : nm.length ≤ kv.1.length := ih.2.2 kv.1 rfl
        refine ⟨?_, ?_, fun f hf => by cases hf⟩
        · rcases ih.1 with hm | heq
          · exact Or.inl (List.mem_cons_of_mem kv hm)
          · have hkn : kv = (nm, p) := by
              cases heq
              cases kv
              exact congrArg (Prod.mk _) hp
            rw [hkn]
            exact Or.inl (List.mem_cons_self _ _)
        · intro kv' hkv' hp'
          rcases List.mem_cons.mp hkv' with hh | ht
          · rw [hh]
            exact hkv
          · exact ih.2.1 kv' ht hp'
      · rw [findNameAux, if_neg hp] at h
        have ih := findNameAux_spec p rest Option.none nm h
        refine ⟨?_, ?_, fun f hf => by cases hf⟩
        · rcases ih.1 with hm | heq
          · exact Or.inl (List.mem_cons_of_mem kv hm)
          · cases heq
        · intro kv' hkv' hp'
          rcases List.mem_cons.mp hkv' with hh | ht
          · exact absurd (hh ▸ hp') hp
          · exact ih.2.1 kv' ht hp'
  | kv :: rest, Option.some f, nm, h => by
      by_cases hp : kv.2 = p
      · by_cases hl : kv.1.length < f.length
        · rw [findNameAux, if_pos hp, if_pos hl] at h
          have ih := findNameAux_spec p rest (Option.some kv.1) nm h
          have hkv : nm.length ≤ kv.1.length := ih.2.2 kv.1 rfl
          refine ⟨?_, ?_, fun f' hf' => ?_⟩
          · rcases ih.1 with hm | heq
            · exact Or.inl (List.mem_cons_of_mem kv hm)
            · have hkn : kv = (nm, p) := by
                cases heq
                cases kv
                exact congrArg (Prod.mk _) hp
              rw [hkn]
              exact Or.inl (List.mem_cons_self _ _)
          · intro kv' hkv' hp'
            rcases List.mem_cons.mp hkv' with hh | ht
            · rw [hh]
              exact hkv
            · exact ih.2.1 kv' ht hp'
          · cases hf'
            exact le_trans hkv (le_of_lt hl)
        · rw [findNameAux, if_pos hp, if_neg hl] at h
          have ih := findNameAux_spec p rest (Option.some f) nm h
          have hnf : nm.length ≤ f.length := ih.2.2 f rfl
          refine ⟨?_, ?_, fun f' hf' => ?_⟩
          · rcases ih.1 with hm | heq
            · exact Or.inl (List.mem_cons_of_mem kv hm)
            · exact Or.inr heq
          · intro kv' hkv' hp'
            rcases List.mem_cons.mp hkv' with hh | ht
            · rw [hh]
              exact le_trans hnf (le_of_not_lt hl)
            · exact ih.2.1 kv' ht hp'
          · cases hf'
            exact hnf
      · rw [findNameAux, if_neg hp] at h
        have ih := findNameAux_spec p rest (Option.some f) nm h
        refine ⟨?_, ?_, fun f' hf' => ?_⟩
        · rcases ih.1 with hm | heq
          · exact Or.inl (List.mem_cons_of_mem kv hm)
          · exact Or.inr heq
        · intro kv' hkv' hp'
          rcases List.mem_cons.mp hkv' with hh | ht
          · exact absurd (hh ▸ hp') hp
          · exact ih.2.1 kv' ht hp'
        · cases hf'
          exact ih.2.2 f rfl

theorem assignF_attrU (L : Locals) (g : Graph) (pid root : Nat) (attr nm : String)
    (h : findName L pid = Option.some nm) :
    eraseNames (assignF L g (FVal.attrU pid root attr))
      = eraseNames g ++ [("call_function", Target.callable "getattr",
          [Arg.node root, Arg.base (BaseLit.str attr)], [])] := by
  have hcn := eraseNames_create_node g "call_function" (Target.callable "getattr")
      [Arg.node root, Arg.base (BaseLit.str attr)] [] Option.none
  simp only [assignF, h]
  split
  · exact hcn
  · split
    · exact hcn
    · rw [eraseNames_renameNode]
      exact hcn

/-- C6 (amended): the friendly-name resolver preserves graph structure (node
count, ordering, kinds, targets, args, kwargs) whenever every proxy leaf of
the structure is materialized, its only effect being name rewrites; but when
it finds an unmaterialized Attribute-variant leaf aliased by a local binding,
reading that leaf's backing node materializes it, appending exactly one
`call_function` node targeting the attribute-get operation (existing nodes
still keep their kinds, targets, args and kwargs). -/
theorem c6_resolver_renames_only :
    (∀ (L : Locals) (g : Graph) (v : FVal), noAttrU v = true →
      eraseNames (assignF L g v) = eraseNames g) ∧
    (∀ (L : Locals) (g : Graph) (pid root : Nat) (attr nm : String),
      findName L pid = Option.some nm →
      eraseNames (assignF L g (FVal.attrU pid root attr))
        = eraseNames g ++ [("call_function", Target.callable "getattr",
            [Arg.node root, Arg.base (BaseLit.str attr)], [])]) :=
  ⟨fun L g v h => eraseNames_assignF L g v h,
   fun L g pid root attr nm h => assignF_attrU L g pid root attr nm h⟩

theorem c6_witness :
    (noAttrU (FVal.tup [FVal.prox 5 0]) = true ∧
      eraseNames (assignF [("y", 5)] [⟨"placeholder", Target.str "x", [], [], "x"⟩]
        (FVal.tup [FVal.prox 5 0]))
        = eraseNames [⟨"placeholder", Target.str "x", [], [], "x"⟩]) ∧
    eraseNames (assignF [("y", 5)] [⟨"placeholder", Target.str "x", [], [], "x"⟩]
        (FVal.attrU 5 0 "foo"))
      = eraseNames [⟨"placeholder", Target.str "x", [], [], "x"⟩]
        ++ [("call_function", Target.callable "getattr",
            [Arg.node 0, Arg.base (BaseLit.str "foo")], [])] :=
  ⟨⟨rfl, c6_resolver_renames_only.1 [("y", 5)] _ (FVal.tup [FVal.prox 5 0]) rfl⟩,
    c6_resolver_renames_only.2 [("y", 5)] _ 5 0 "foo" "y" rfl⟩

/-- C6 counterexample: run over a structure whose leaf is an unmaterialized
Attribute-variant proxy aliased by the local binding y, the resolver does
change the node count, materializing the attribute's backing node. -/
theorem c6_counterexample :
    (assignF [("y", 5)] [⟨"placeholder", Target.str "x", [], [], "x"⟩]
        (FVal.attrU 5 0 "foo")).length ≠
      ([⟨"placeholder", Target.str "x", [], [], "x"⟩] : Graph).length := by
  have h := assignF_attrU [("y", 5)] [⟨"placeholder", Target.str "x", [], [], "x"⟩]
      5 0 "foo" "y" rfl
  have hlen := congrArg List.length h
  simp only [eraseNames, List.length_map, List.length_append, List.length_cons,
    List.length_nil] at hlen
  simp only [List.length_cons, List.length_nil]
  omega

/-- C8: when the resolver finds local bindings aliasing a proxy leaf, the
selected candidate is itself one of the aliasing bindings and has minimal
name length among them; and the leaf assignment renames the backing node
exactly when the candidate differs from the node's current name. -/
theorem c8_shortest_alias (L : Locals) (p : Nat) (nm : String)
    (h : findName L p = Option.some nm) :
    ((nm, p) ∈ L ∧ ∀ kv ∈ L, kv.2 = p → nm.length ≤ kv.1.length) ∧
    (∀ (g : Graph) (nid : Nat) (nd : Node), g[nid]? = Option.some nd →
      assignF L g (FVal.prox p nid)
        = if nm = nd.name then g else renameNode g nid (uniquify g nm)) := by
  have hs := findNameAux_spec p L Option.none nm h
  refine ⟨⟨?_, hs.2.1⟩, ?_⟩
  · rcases hs.1 with hm | heq
    · exact hm
    · cases heq
  · intro g nid nd hget
    simp only [assignF, assignLeaf, h, hget]

theorem c8_witness :
    findName [("longer_alias", 7), ("short", 7)] 7 = Option.some "short" ∧
    ("short", 7) ∈ ([("longer_alias", 7), ("short", 7)] : Locals) ∧
    "short".length ≤ "longer_alias".length :=
  ⟨rfl, (c8_shortest_alias [("longer_alias", 7), ("short", 7)] 7 "short" rfl).1.1,
    (c8_shortest_alias [("longer_alias", 7), ("short", 7)] 7 "short" rfl).1.2
      ("longer_alias", 7) (by simp) rfl⟩

/-- A plain Proxy at trace time: its Python object identity token and the id
of the backing node it wraps. -/
structure ProxyV where
  pid : Nat
  nid : Nat

/-- An operand reaching an installed operator entry: a plain proxy or a
base-type literal. -/
inductive OperandV where
  | prox (pid nid : Nat)
  | lit (b : BaseLit)

/-- What `create_arg` makes of an operand inside `create_proxy`. -/
def OperandV.toArg : OperandV → Arg
  | OperandV.prox _ nid => Arg.node nid
  | OperandV.lit b => Arg.base b

/-- The friendly-name resolver's view of an operand. -/
def OperandV.toFVal : OperandV → FVal
  | OperandV.prox pid nid => FVal.prox pid nid
  | OperandV.lit b => FVal.lit b

/-- Embedding of one installed `magic_methods` entry (proxy.py lines 236-247)
applied to two operands: run the friendly-name resolver over the received
argument tuple, then record a `call_function` node whose target is the
operator symbol and whose args are the operands exactly as received. -/
def magicCall (L : Locals) (g : Graph) (op : String) (lhs rhs : OperandV) : Graph × Nat :=
  let g1 := assignF L g (FVal.tup [lhs.toFVal, rhs.toFVal])
  create_node g1 "call_function" (Target.callable ("operator." ++ op))
    [lhs.toArg, rhs.toArg] [] Option.none

/-- Embedding of a reflected entry from `_define_reflectable` (proxy.py lines
249-260): invoked on the proxy with the left operand as `rhs`, it records a
`call_function` node with the operands swapped back into surface order
`(rhs, self)`. -/
def reflectedCall (g : Graph) (op : String) (self : ProxyV) (rhs : OperandV) : Graph × Nat :=
  create_node g "call_function" (Target.callable ("operator." ++ op))
    [rhs.toArg, Arg.node self.nid] [] Option.none

/-- Modelled from the spec: the operator catalogs (`magic_methods` and
`reflectable_magic_methods` of graph.py are not under src/); spec sections
4.5 and 6 describe two fixed lists, all supported operator symbols and the
subset that needs a reflected right-hand counterpart. -/
def reflectable_magic_methods : List String :=
  ["add", "sub", "mul", "floordiv", "truediv", "mod", "pow",
   "lshift", "rshift", "and", "or", "xor"]

/-- Modelled from the spec: all supported operator symbols (binary
arithmetic, comparison, bitwise, indexing and unary). -/
def magic_methods : List String :=
  reflectable_magic_methods ++
    ["eq", "ne", "lt", "gt", "le", "ge", "getitem", "neg", "invert"]

theorem noAttrU_operand_pair (a b : OperandV) :
    noAttrU (FVal.tup [a.toFVal, b.toFVal]) = true := by
  cases a <;> cases b <;> rfl

theorem magicCall_spec (L : Locals) (g : Graph) (op : String) (lhs rhs : OperandV) :
    eraseNames (magicCall L g op lhs rhs).1
      = eraseNames g ++ [("call_function", Target.callable ("operator." ++ op),
          [lhs.toArg, rhs.toArg], [])] ∧
    (magicCall L g op lhs rhs).2 = g.length := by
  have hpre := eraseNames_assignF L g (FVal.tup [lhs.toFVal, rhs.toFVal])
    (noAttrU_operand_pair lhs rhs)
  constructor
  · show eraseNames (create_node (assignF L g (FVal.tup [lhs.toFVal, rhs.toFVal]))
        "call_function" (Target.callable ("operator." ++ op))
        [lhs.toArg, rhs.toArg] [] Option.none).1 = _
    rw [eraseNames_create_node, hpre]
  · show (assignF L g (FVal.tup [lhs.toFVal, rhs.toFVal])).length = g.length
    have := congrArg List.length hpre
    simpa [eraseNames] using this

/-- C7: every installed operator entry records a `call_function` node whose
target is the operator symbol and whose args are the two operands in surface
(left-then-right) order: a direct entry evaluating p op b receives (p, b)
and records args (p, b), while a reflected entry evaluating a op p is
invoked on the proxy with the left operand second and swaps them, recording
args (a, p). -/
theorem c7_surface_order (L : Locals) (g : Graph) (op : String)
    (p : ProxyV) (b a : OperandV) :
    (op ∈ magic_methods →
      eraseNames (magicCall L g op (OperandV.prox p.pid p.nid) b).1
        = eraseNames g ++ [("call_function", Target.callable ("operator." ++ op),
            [Arg.node p.nid, b.toArg], [])]) ∧
    (op ∈ reflectable_magic_methods →
      eraseNames (reflectedCall g op p a).1
        = eraseNames g ++ [("call_function", Target.callable ("operator." ++ op),
            [a.toArg, Arg.node p.nid], [])]) := by
  constructor
  · intro hmem
    exact (magicCall_spec L g op (OperandV.prox p.pid p.nid) b).1
  · intro hmem
    exact eraseNames_create_node g "call_function" (Target.callable ("operator." ++ op))
      [a.toArg, Arg.node p.nid] [] Option.none

theorem c7_witness :
    ("add" ∈ magic_methods ∧ "add" ∈ reflectable_magic_methods) ∧
    eraseNames (magicCall [] [] "add" (OperandV.prox 1 1) (OperandV.lit (BaseLit.int 3))).1
      = [("call_function", Target.callable "operator.add",
          [Arg.node 1, Arg.base (BaseLit.int 3)], [])] ∧
    eraseNames (reflectedCall [] "add" ⟨1, 1⟩ (OperandV.lit (BaseLit.int 2))).1
      = [("call_function", Target.callable "operator.add",
          [Arg.base (BaseLit.int 2), Arg.node 1], [])] :=
  ⟨⟨by simp [magic_methods, reflectable_magic_methods],
     by simp [reflectable_magic_methods]⟩,
   (c7_surface_order [] [] "add" ⟨1, 1⟩ (OperandV.lit (BaseLit.int 3))
       (OperandV.lit (BaseLit.int 2))).1
     (by simp [magic_methods, reflectable_magic_methods]),
   (c7_surface_order [] [] "add" ⟨1, 1⟩ (OperandV.lit (BaseLit.int 3))
       (OperandV.lit (BaseLit.int 2))).2
     (by simp [reflectable_magic_methods])⟩

/-- Embedding of `Attribute.call` on x.foo(y, ...) (proxy.py lines 232-234):
run the friendly-name resolver over the supplied argument tuple, then record
one `call_method` node targeting the attribute name, with the root proxy
prepended to the lowered arguments and empty kwargs. -/
def attrCall (L : Locals) (g : Graph) (root : ProxyV) (attr : String)
    (args : List ProxyV) : Graph × Nat :=
  let g1 := assignF L g (FVal.tup (args.map (fun q => FVal.prox q.pid q.nid)))
  create_node g1 "call_method" (Target.str attr)
    (Arg.node root.nid :: args.map (fun q => Arg.node q.nid)) [] Option.none

theorem noAttrU_proxyList (args : List ProxyV) :
    noAttrUList (args.map (fun q => FVal.prox q.pid q.nid)) = true := by
  induction args with
  | nil => rfl
  | cons q qs ih => simpa [noAttrUList, noAttrU] using ih

/-- C2: calling an attribute of a proxy, as in x.foo(y), records exactly one
new node, a `call_method` node whose target is the attribute name and whose
args are (x's node, y's node); no get_attr or attribute-access node is
recorded, since the appended entry is the only change to the graph's
structure. -/
theorem c2_call_method_collapse (L : Locals) (g : Graph) (x y : ProxyV) (attr : String) :
    eraseNames (attrCall L g x attr [y]).1
      = eraseNames g ++ [("call_method", Target.str attr,
          [Arg.node x.nid, Arg.node y.nid], [])] ∧
    (attrCall L g x attr [y]).1.length = g.length + 1 := by
  have hpre := eraseNames_assignF L g (FVal.tup [FVal.prox y.pid y.nid])
    (by simp [noAttrU, noAttrUList])
  have h1 : eraseNames (attrCall L g x attr [y]).1
      = eraseNames g ++ [("call_method", Target.str attr,
          [Arg.node x.nid, Arg.node y.nid], [])] := by
    show eraseNames (create_node (assignF L g (FVal.tup [FVal.prox y.pid y.nid]))
        "call_method" (Target.str attr) [Arg.node x.nid, Arg.node y.nid] [] Option.none).1 = _
    rw [eraseNames_create_node, hpre]
  refine ⟨h1, ?_⟩
  have := congrArg List.length h1
  simpa [eraseNames] using this

/-- A trace-time Attribute value (proxy.py lines 217-230): the root proxy's
node id, the attribute name, and the lazily materialized backing node. -/
structure AttrV where
  root : Nat
  attr : String
  memo : Option Nat

/-- Embedding of `Proxy.getattr` (proxy.py lines 180-183): return a deferred
Attribute value; the graph is not touched. -/
def proxyGetattr (g : Graph) (root : ProxyV) (k : String) : Graph × AttrV :=
  (g, ⟨root.nid, k, Option.none⟩)

/-- Embedding of the lazy `Attribute.node` accessor (proxy.py lines 224-230):
on first access record a `call_function` node targeting the attribute-get
operation with args (root, attribute name) and memoize its id; on later
accesses return the memoized node with no graph change. -/
def attrNode (g : Graph) (a : AttrV) : Graph × AttrV × Nat :=
  match a.memo with
  | Option.some nid => (g, a, nid)
  | Option.none =>
      let r := create_node g "call_function" (Target.callable "getattr")
          [Arg.node a.root, Arg.base (BaseLit.str a.attr)] [] Option.none
      (r.1, ⟨a.root, a.attr, Option.some r.2⟩, r.2)

/-- C3: accessing x.foo appends no node; the first read of the backing-node
accessor appends exactly one `call_function` node targeting the
attribute-get operation with args (root, attribute name), and a repeated
read returns the same node id without growing the graph. -/
theorem c3_attribute_laziness (g : Graph) (root : ProxyV) (k : String) :
    (proxyGetattr g root k).1 = g ∧
    eraseNames (attrNode g (proxyGetattr g root k).2).1
      = eraseNames g ++ [("call_function", Target.callable "getattr",
          [Arg.node root.nid, Arg.base (BaseLit.str k)], [])] ∧
    (attrNode g (proxyGetattr g root k).2).2.2 = g.length ∧
    attrNode (attrNode g (proxyGetattr g root k).2).1
        (attrNode g (proxyGetattr g root k).2).2.1
      = ((attrNode g (proxyGetattr g root k).2).1,
         (attrNode g (proxyGetattr g root k).2).2.1,
         (attrNode g (proxyGetattr g root k).2).2.2) :=
  ⟨rfl,
   eraseNames_create_node g "call_function" (Target.callable "getattr")
     [Arg.node root.nid, Arg.base (BaseLit.str k)] [] Option.none,
   rfl, rfl⟩

/-- The distinguished trace error (proxy.py lines 104-105), a ValueError
subclass raised when a symbolic value is used where a concrete one is
required. -/
inductive TraceErr where
  | traceError

/-- Embedding of the default `TracerBase.to_bool` (proxy.py lines 73-79):
raise TraceError; the graph is untouched. -/
def tracerToBool (g : Graph) (_p : ProxyV) : Graph × Except TraceErr Bool :=
  (g, Except.error TraceErr.traceError)

/-- Embedding of `Proxy.bool` (proxy.py lines 200-201): delegate boolean
coercion to the tracer's to_bool. -/
def proxyBool (g : Graph) (p : ProxyV) : Graph × Except TraceErr Bool :=
  tracerToBool g p

/-- Embedding of the default `TracerBase.iter` (proxy.py lines 81-88): raise
TraceError; the graph is untouched. -/
def tracerIterDefault (g : Graph) (_p : ProxyV) : Graph × Except TraceErr (List ProxyV) :=
  (g, Except.error TraceErr.traceError)

/-- The call-site condition `Proxy.iter` inspects by bytecode introspection
(proxy.py lines 189-198): either the instruction at the caller is an
explicit unpack-N-values instruction (UNPACK_SEQUENCE), or anything else. -/
inductive CallSite where
  | unpackSequence (n : Nat)
  | other

/-- The per-index access proxies a fixed-arity unpack consumes: for each
index the generator evaluates self[i], the indexing operator entry, which
records one `call_function` node and wraps it in a fresh proxy. -/
def iterFrom (L : Locals) (self : ProxyV) (g : Graph) (i : Nat) : Nat → Graph × List ProxyV
  | 0 => (g, [])
  | Nat.succ k =>
      let r := magicCall L g "getitem" (OperandV.prox self.pid self.nid)
          (OperandV.lit (BaseLit.int i))
      let rest := iterFrom L self r.1 (i + 1) k
      (rest.1, ⟨r.2, r.2⟩ :: rest.2)

/-- Embedding of `Proxy.iter`: on an UNPACK_SEQUENCE call site of arity n,
produce the n per-index access proxies without consulting the tracer's iter
hook; on any other call site, delegate to the hook. -/
def proxyIter (L : Locals) (g : Graph) (self : ProxyV) (site : CallSite)
    (hook : Graph → ProxyV → Graph × Except TraceErr (List ProxyV)) :
    Graph × Except TraceErr (List ProxyV) :=
  match site with
  | CallSite.unpackSequence n =>
      let r := iterFrom L self g 0 n
      (r.1, Except.ok r.2)
  | CallSite.other => hook g self

/-- C5: on the base (non-overridden) tracer, boolean coercion of a proxy and
iteration of a proxy at a call site that is not a fixed-arity unpack both
fail with TraceError, and neither failure path records a node. -/
theorem c5_default_bool_iter_fail (L : Locals) (g : Graph) (p : ProxyV) :
    proxyBool g p = (g, Except.error TraceErr.traceError) ∧
    proxyIter L g p CallSite.other tracerIterDefault
      = (g, Except.error TraceErr.traceError) :=
  ⟨rfl, rfl⟩

/-- The expected graph entries of a fixed-arity unpack: one indexing-operator
`call_function` record per index, counting up from i. -/
def getitemEntries (self : ProxyV) (i : Nat) :
    Nat → List (String × Target × List Arg × List (String × Arg))
  | 0 => []
  | Nat.succ k =>
      ("call_function", Target.callable "operator.getitem",
        [Arg.node self.nid, Arg.base (BaseLit.int i)], [])
        :: getitemEntries self (i + 1) k

/-- The expected per-index proxies: consecutive fresh node ids from b. -/
def idsFrom (b : Nat) : Nat → List ProxyV
  | 0 => []
  | Nat.succ k => ⟨b, b⟩ :: idsFrom (b + 1) k

theorem iterFrom_spec (L : Locals) (self : ProxyV) :
    ∀ (n : Nat) (g : Graph) (i : Nat),
      eraseNames (iterFrom L self g i n).1 = eraseNames g ++ getitemEntries self i n ∧
      (iterFrom L self g i n).2 = idsFrom g.length n
  | 0, g, i => by simp [iterFrom, getitemEntries, idsFrom]
  | Nat.succ m, g, i => by
      have hm := magicCall_spec L g "getitem" (OperandV.prox self.pid self.nid)
        (OperandV.lit (BaseLit.int i))
      have hlen : (magicCall L g "getitem" (OperandV.prox self.pid self.nid)
          (OperandV.lit (BaseLit.int i))).1.length = g.length + 1 := by
        have := congrArg List.length hm.1
        simpa [eraseNames] using this
      have ih := iterFrom_spec L self m (magicCall L g "getitem"
        (OperandV.prox self.pid self.nid) (OperandV.lit (BaseLit.int i))).1 (i + 1)
      constructor
      · show eraseNames (iterFrom L self (magicCall L g "getitem"
            (OperandV.prox self.pid self.nid) (OperandV.lit (BaseLit.int i))).1
            (i + 1) m).1 = _
        rw [ih.1, hm.1, getitemEntries]
        simp [OperandV.toArg, List.append_assoc]
      · show (⟨(magicCall L g "getitem" (OperandV.prox self.pid self.nid)
            (OperandV.lit (BaseLit.int i))).2,
            (magicCall L g "getitem" (OperandV.prox self.pid self.nid)
            (OperandV.lit (BaseLit.int i))).2⟩ : ProxyV)
            :: (iterFrom L self (magicCall L g "getitem"
              (OperandV.prox self.pid self.nid) (OperandV.lit (BaseLit.int i))).1
              (i + 1) m).2 = _
        rw [ih.2, hm.2, hlen, idsFrom]

theorem getitemEntries_eq (self : ProxyV) :
    ∀ (n i : Nat),
      getitemEntries self i n = (List.range n).map (fun (k : Nat) =>
        ("call_function", Target.callable "operator.getitem",
         [Arg.node self.nid, Arg.base (BaseLit.int (i + k))], []))
  | 0, i => by simp [getitemEntries]
  | Nat.succ m, i => by
      rw [getitemEntries, getitemEntries_eq self m (i + 1), List.range_succ_eq_map,
        List.map_cons, List.map_map]
      refine List.cons_eq_cons.mpr ⟨?_, List.map_congr_left ?_⟩
      · exact congrArg (fun j : Int => ("call_function", Target.callable "operator.getitem",
          [Arg.node self.nid, Arg.base (BaseLit.int j)], ([] : List (String × Arg))))
          (by omega)
      · intro a ha
        exact congrArg (fun j : Int => ("call_function", Target.callable "operator.getitem",
          [Arg.node self.nid, Arg.base (BaseLit.int j)], ([] : List (String × Arg))))
          (by omega)

theorem idsFrom_eq : ∀ (n b : Nat),
    idsFrom b n = (List.range n).map (fun k => (⟨b + k, b + k⟩ : ProxyV))
  | 0, b => by simp [idsFrom]
  | Nat.succ m, b => by
      rw [idsFrom, idsFrom_eq m (b + 1), List.range_succ_eq_map, List.map_cons,
        List.map_map]
      congr 1
      · apply List.map_congr_left
        intro a ha
        simp only [Function.comp]
        have : b + 1 + a = b + (a + 1) := by omega
        rw [this]

/-- C9: on a fixed-arity structural unpack of N values, iteration of a proxy
returns exactly the N per-index access proxies, each backed by a fresh
`call_function` node applying the indexing operator to the proxy and the
index, for indices 0 through N-1, and the result does not depend on the
tracer's iter hook; on every other call site iteration delegates to the
hook. -/
theorem c9_fixed_arity_unpack (L : Locals) (g : Graph) (self : ProxyV) (n : Nat)
    (hook hook2 : Graph → ProxyV → Graph × Except TraceErr (List ProxyV)) :
    proxyIter L g self (CallSite.unpackSequence n) hook
      = proxyIter L g self (CallSite.unpackSequence n) hook2 ∧
    (proxyIter L g self (CallSite.unpackSequence n) hook).2
      = Except.ok ((List.range n).map (fun k => (⟨g.length + k, g.length + k⟩ : ProxyV))) ∧
    eraseNames (proxyIter L g self (CallSite.unpackSequence n) hook).1
      = eraseNames g ++ (List.range n).map (fun (k : Nat) =>
          ("call_function", Target.callable "operator.getitem",
           [Arg.node self.nid, Arg.base (BaseLit.int (0 + k))], [])) ∧
    proxyIter L g self CallSite.other hook = hook g self := by
  have hs := iterFrom_spec L self n g 0
  refine ⟨rfl, ?_, ?_, rfl⟩
  · show Except.ok (iterFrom L self g 0 n).2 = _
    rw [hs.2, idsFrom_eq]
  · show eraseNames (iterFrom L self g 0 n).1 = _
    rw [hs.1, getitemEntries_eq]
    rfl

/-- A reference to a node in a world of live graphs: the owning graph's id
(the node's back-reference to its graph) and the node's id inside it. -/
structure NodeRef where
  graphId : Nat
  nid : Nat

/-- A tracer as the holder of a graph reference (`TracerBase.graph`). -/
structure TracerV where
  graphId : Nat

/-- Embedding of `GraphAppendingTracer` (proxy.py lines 98-102): a base
tracer bound to the given graph. -/
def graphAppendingTracer (gid : Nat) : TracerV := ⟨gid⟩

/-- A proxy object as built by `Proxy.init`: the wrapped node and the tracer
operations recorded through the proxy will use. -/
structure PObj where
  node : NodeRef
  tracer : TracerV

/-- Embedding of `Proxy.init` (proxy.py lines 167-175): when no tracer is
supplied, bind the proxy to a fresh graph-appending tracer over the wrapped
node's own owning graph. -/
def proxyInit (node : NodeRef) (tracer : Option TracerV) : PObj :=
  match tracer with
  | Option.some t => ⟨node, t⟩
  | Option.none => ⟨node, graphAppendingTracer node.graphId⟩

/-- The world of live graphs, indexed by graph id. -/
abbrev World := List Graph

/-- Recording an operation through a tracer: `TracerBase.create_node`
delegates to the graph store of the tracer's own graph, appending one
node there and leaving every other graph untouched. -/
def worldCreateNode (w : World) (t : TracerV) (kind : String) (target : Target)
    (args : List Arg) (kwargs : List (String × Arg)) : World × NodeRef :=
  let g := w.getD t.graphId []
  let r := create_node g kind target args kwargs Option.none
  (w.set t.graphId r.1, ⟨t.graphId, r.2⟩)

/-- C10: constructing a Proxy around an existing node without a tracer binds
it to a graph-appending tracer over the node's own owning graph, so a
recorded operation appends to exactly that graph (the world update touches
only the node's graph id, appending one node there). -/
theorem c10_default_tracer_appends_to_own_graph (w : World) (node : NodeRef)
    (kind : String) (target : Target) (args : List Arg)
    (kwargs : List (String × Arg)) :
    (proxyInit node Option.none).tracer = graphAppendingTracer node.graphId ∧
    worldCreateNode w (proxyInit node Option.none).tracer kind target args kwargs
      = (w.set node.graphId ((w.getD node.graphId []) ++
          [⟨kind, target, args, kwargs,
            uniquify (w.getD node.graphId []) (targetToStr target)⟩]),
         ⟨node.graphId, (w.getD node.graphId []).length⟩) :=
  ⟨rfl, rfl⟩
